import Mathlib

/-!
Verification development for the signal-bot repository.

The definitions below are a shallow embedding of the Python sources under
src/src/signal_bot and src/src/signal_bot_framework: JSON parameter
dictionaries become insertion-ordered association lists, coroutine methods
become pure state-transition functions, and the asyncio event loop is
replaced by explicit event traces.  Each section names the Python function
it embeds.
-/

/-- JSON-like values, the payloads of the JSON-RPC parameter dictionaries. -/
inductive JVal where
  | jnull
  | jbool (b : Bool)
  | jnum (n : Int)
  | jstr (s : String)
  | jlist (xs : List JVal)

/-- Python dictionaries preserve insertion order; we embed them as
association lists.  Setting an existing key replaces its value in place,
a new key is appended at the end (CPython dict semantics). -/
def dictSet : List (String × JVal) → String → JVal → List (String × JVal)
  | [], k, v => [(k, v)]
  | (k0, v0) :: rest, k, v =>
      if k0 = k then (k0, v) :: rest else (k0, v0) :: dictSet rest k v

/-- Update a dict with all entries of another dict, in order (dict.update). -/
def dictUpdate (d : List (String × JVal)) (upd : List (String × JVal)) :
    List (String × JVal) :=
  upd.foldl (fun acc kv => dictSet acc kv.1 kv.2) d

/-- Key-membership test on an embedded dict. -/
def dictHasKey (d : List (String × JVal)) (k : String) : Bool :=
  d.any (fun p => p.1 = k)

/-- Lookup on an embedded dict. -/
def dictGet (d : List (String × JVal)) (k : String) : Option JVal :=
  (d.find? (fun p => p.1 = k)).map (fun p => p.2)

/-- Python str.capitalize on an ASCII word: first character upper-cased,
the rest lower-cased (embeds the x.capitalize() calls of _util.py). -/
def capitalizeChars : List Char → List Char
  | [] => []
  | c :: cs => c.toUpper :: cs.map Char.toLower

/-- Python str.split of an already lower-cased character list on the
underscore separator. -/
def splitOnUnderscore : List Char → List (List Char)
  | [] => [[]]
  | c :: cs =>
      match splitOnUnderscore cs with
      | [] => [[]]
      | seg :: rest => if c = '_' then [] :: seg :: rest else (c :: seg) :: rest

/-- Embeds _util.to_camel_case: lower-case the string, split on
underscores, capitalize each piece and join. -/
def toCamelCase (s : String) : String :=
  String.mk (((splitOnUnderscore (s.data.map Char.toLower)).map capitalizeChars).flatten)

/-- Embeds _util.to_lower_camel_case: first source character lower-cased,
then the camel-cased remainder. -/
def toLowerCamelCase (s : String) : String :=
  match s.data, (toCamelCase s).data with
  | c :: _, _ :: rest => String.mk (c.toLower :: rest)
  | _, _ => toCamelCase s

/-- Embeds _signal_impl.py lines 95/106/114: the destination parameter key
is chosen purely by the length of the destination string. -/
def destinationKey (dest : String) : String :=
  if dest.length = 44 then "groupId" else "recipient"

/-- Embeds SignalBotImpl.send_typing (lines 94-98): kwargs starts with the
destination entry and adds a stop flag when requested. -/
def sendTypingParams (dest : String) (stop : Bool) : List (String × JVal) :=
  let kwargs : List (String × JVal) := [(destinationKey dest, JVal.jstr dest)]
  if stop then dictSet kwargs "stop" (JVal.jbool true) else kwargs

/-- Embeds args.QuoteMessageArgs: the dataclass fields that feed
JsonRpcArgs.to_args.  Attachment paths are kept as strings. -/
structure QuoteMessageArgsM where
  timestamp : Int
  author : String
  message : Option String
  mention : List JVal
  attachments : List JVal
  textStyle : List String

/-- Embeds JsonRpcArgs.to_args for QuoteMessageArgs: dir() enumerates the
public attributes in alphabetical order (attachments, author, mention,
message, text_style, timestamp); None-valued attributes are skipped and
each key is lower-camel-cased. -/
def quoteToArgs (q : QuoteMessageArgsM) : List (String × JVal) :=
  [(toLowerCamelCase "attachments", JVal.jlist q.attachments),
   (toLowerCamelCase "author", JVal.jstr q.author)] ++
  [(toLowerCamelCase "mention", JVal.jlist q.mention)] ++
  (match q.message with
   | none => []
   | some m => [(toLowerCamelCase "message", JVal.jstr m)]) ++
  [(toLowerCamelCase "text_style", JVal.jlist (q.textStyle.map JVal.jstr)),
   (toLowerCamelCase "timestamp", JVal.jnum q.timestamp)]

/-- Embeds args.SendMessageArgs: the three plain optional fields plus the
nested quote arguments. -/
structure SendMessageArgsM where
  attachment : Option (List String)
  mention : Option (List String)
  textStyle : Option (List String)
  quote : Option QuoteMessageArgsM

/-- Embeds JsonRpcArgs.to_args for SendMessageArgs: plain non-None fields
first (dir() order: attachment, mention, text_style), then the nested
JsonRpcArgs field quote, whose keys are prefixed with the field name and
re-camel-cased (note: to_camel_case lower-cases the nested key first, so
quote_textStyle becomes quoteTextstyle). -/
def sendMessageArgsToArgs (a : SendMessageArgsM) : List (String × JVal) :=
  (match a.attachment with
   | none => []
   | some xs => [(toLowerCamelCase "attachment", JVal.jlist (xs.map JVal.jstr))]) ++
  (match a.mention with
   | none => []
   | some xs => [(toLowerCamelCase "mention", JVal.jlist (xs.map JVal.jstr))]) ++
  (match a.textStyle with
   | none => []
   | some xs => [(toLowerCamelCase "text_style", JVal.jlist (xs.map JVal.jstr))]) ++
  (match a.quote with
   | none => []
   | some q => (quoteToArgs q).map
       (fun kv => (toLowerCamelCase ("quote_" ++ kv.1), kv.2)))

/-- Python truthiness of the message argument (None or the empty
string), from the condition at send_message line 104. -/
def messageFalsy (message : Option String) : Bool :=
  match message with
  | none => true
  | some m => m == ""

/-- Python truthiness of args.attachment (None or empty list). -/
def attachmentFalsy (args : Option SendMessageArgsM) : Bool :=
  match args with
  | none => true
  | some a => match a.attachment with
    | none => true
    | some xs => xs.isEmpty

/-- Final kwargs of send_message before the json_rpc call: the
destination entry, updated with args.to_args() when args is present. -/
def sendMessageKwargs (dest : String) (args : Option SendMessageArgsM) :
    List (String × JVal) :=
  match args with
  | none => [(destinationKey dest, JVal.jstr dest)]
  | some a => dictUpdate [(destinationKey dest, JVal.jstr dest)] (sendMessageArgsToArgs a)

/-- JSON value of the message keyword argument passed by send_message to
the json_rpc call. -/
def messageJVal (message : Option String) : JVal :=
  match message with
  | none => JVal.jnull
  | some m => JVal.jstr m

/-- Embeds SignalBotImpl.send_message (lines 100-110): a ValueError is
raised when the message is falsy, args is present and args.attachment is
falsy; otherwise the kwargs above get the message entry added by the
json_rpc call. -/
def sendMessageParams (dest : String) (message : Option String)
    (args : Option SendMessageArgsM) : Except String (List (String × JVal)) :=
  if messageFalsy message && args.isSome && attachmentFalsy args then
    Except.error "message cannot be empty without attachment"
  else
    Except.ok (dictSet (sendMessageKwargs dest args) "message" (messageJVal message))

/-- Embeds SignalBotImpl.delete_message (lines 112-117): destination entry
plus the target timestamp in milliseconds. -/
def deleteMessageParams (dest : String) (targetTimestampMs : Int) :
    List (String × JVal) :=
  [(destinationKey dest, JVal.jstr dest),
   ("targetTimestamp", JVal.jnum targetTimestampMs)]

/-- Embeds SignalBotImpl.__json_rpc request construction (lines 197-208):
params is updated with the account entry and wrapped in a JSON-RPC 2.0
frame. -/
def jsonRpcRequest (account : String) (requestId : String) (method : String)
    (params : List (String × JVal)) : List (String × JVal) :=
  [("jsonrpc", JVal.jstr "2.0"),
   ("id", JVal.jstr requestId),
   ("method", JVal.jstr method),
   ("params", JVal.jlist ((dictUpdate params [("account", JVal.jstr account)]).map
      (fun kv => JVal.jlist [JVal.jstr kv.1, kv.2])))]

/-- Shape of one decoded inbound JSON object: whether it carries a result
or an error key (the Response classification of the listen loops) and its
method and id fields. -/
structure FrameM where
  hasResult : Bool
  hasError : Bool
  idVal : Option String
  methodVal : Option String
deriving DecidableEq

/-- Outcome of one listen-loop iteration's readline plus json.loads: a
poll timeout (readline returned None), a decoded frame, or a line that is
not valid JSON (json.loads raises json.JSONDecodeError). -/
inductive LineM where
  | timeoutNone
  | decoded (f : FrameM)
  | malformed
deriving DecidableEq

/-- Where a decoded frame was dispatched by the listen loop. -/
inductive Dispatched where
  | response (f : FrameM)
  | notification (f : FrameM)
deriving DecidableEq

/-- Embeds the frame classification of the listen loops: an object with a
result or error key goes to handle_response, anything else to
handle_notification. -/
def classifyFrame (f : FrameM) : Dispatched :=
  if f.hasResult || f.hasError then Dispatched.response f
  else Dispatched.notification f

/-- Embeds TcpTransport.listen and SubprocessTransport.listen
(signal_bot transport.py lines 29-42 and 86-102; signal_bot_framework
transport.py lines 98-111 and 165-181, all four bodies identical): the
loop reads a line, skips readline timeouts, json.loads the line and
dispatches the frame.  Only CancelledError is caught; a json.loads
failure is modelled as Except.error, aborting the loop.  The loop is run
on a finite list of line outcomes; ok means every line was consumed. -/
def listenRun : List LineM → Except Unit (List Dispatched)
  | [] => Except.ok []
  | LineM.timeoutNone :: rest => listenRun rest
  | LineM.malformed :: _ => Except.error ()
  | LineM.decoded f :: rest =>
      (listenRun rest).map (fun ds => classifyFrame f :: ds)

/-- Frames dispatched from a list of line outcomes that contains no
malformed line (the spec-side description of the listen loop for the
amended claim C2). -/
def dispatchedOfLines (lines : List LineM) : List Dispatched :=
  lines.filterMap (fun l => match l with
    | LineM.decoded f => some (classifyFrame f)
    | _ => none)

/-- Envelope fields consumed by SignalBotImpl.__receive: the wall-clock
timestamp in milliseconds and which payload variant is present (an
envelope carrying both typingMessage and dataMessage matches the
typingMessage case first, per the match order at lines 168-176). -/
structure EnvelopeM where
  timestampMs : Int
  hasTypingMessage : Bool
  hasDataMessage : Bool
deriving DecidableEq

/-- Which branch of SignalBotImpl.__receive ran. -/
inductive ReceiveAction where
  | droppedNoEnvelope
  | droppedOld
  | typingIgnored
  | dataDispatched
  | otherIgnored
deriving DecidableEq

/-- Embeds SignalBotImpl.__receive (lines 154-176): a missing envelope
returns early; an envelope whose timestamp (milliseconds scaled to
seconds, datetime.fromtimestamp) is at or before the session start time
returns before any dispatch; otherwise typingMessage is a no-op, a
dataMessage spawns the dispatch task, and anything else is a no-op. -/
def receiveStep (startTimeSec : ℚ) (envelope : Option EnvelopeM) : ReceiveAction :=
  match envelope with
  | none => ReceiveAction.droppedNoEnvelope
  | some e =>
      if (e.timestampMs : ℚ) / 1000 ≤ startTimeSec then ReceiveAction.droppedOld
      else if e.hasTypingMessage then ReceiveAction.typingIgnored
      else if e.hasDataMessage then ReceiveAction.dataDispatched
      else ReceiveAction.otherIgnored

/-- Embeds SignalBotImpl.handle_notification (lines 143-148): only the
receive method is processed, every other method is logged and ignored. -/
inductive NotificationAction where
  | received (a : ReceiveAction)
  | warnedUnexpected
deriving DecidableEq

/-- Embeds the method dispatch of SignalBotImpl.handle_notification. -/
def handleNotificationStep (startTimeSec : ℚ) (methodVal : String)
    (envelope : Option EnvelopeM) : NotificationAction :=
  if methodVal = "receive" then
    NotificationAction.received (receiveStep startTimeSec envelope)
  else NotificationAction.warnedUnexpected

/-- Context of an inbound data message, built in
SignalBotImpl.__handle_data_message lines 183-187: a group tuple when the
message carries group info, otherwise an individual tuple of sender
account and display name. -/
inductive ContextM where
  | group (gid : String)
  | individual (acct : String) (srcName : String)
deriving DecidableEq

/-- Element 1 of the context tuple: the group id or the account. -/
def contextSubject : ContextM → String
  | ContextM.group gid => gid
  | ContextM.individual acct _ => acct

/-- Embeds Personality.matches_context of the signal_bot revision
(personality.py lines 38-39): plain membership of the context subject in
the registered context sequence, with no empty-filter special case. -/
def matchesContextImpl (contexts : List String) (ctx : ContextM) : Bool :=
  contexts.contains (contextSubject ctx)

/-- Embeds Personality.matches_context of the signal_bot_framework
revision (personality.py lines 44-51): an empty context filter matches
every context, otherwise membership of the context subject. -/
def matchesContextFramework (contexts : List String) (ctx : ContextM) : Bool :=
  contexts.length == 0 || contexts.contains (contextSubject ctx)

/-- Modelled from the spec (sections 2 and 4.5 treat cron_converter as the
external schedule source): the Seeker returned by Cron.schedule is a
stateful iterator whose next() yields the first occurrence of the cron
expression strictly after the previously yielded occurrence.  For the
every-60-seconds schedule of claim C3 the occurrences are the multiples
of 60, so the occurrence after a time t is the next multiple of 60
strictly above t. -/
def nextOccurrence60 (last : Nat) : Nat :=
  60 * (last / 60 + 1)

/-- Embeds the success path of Personality._cron_repeat's _reschedule
(signal_bot personality.py lines 50-67; identical logic in
signal_bot_framework lines 66-85): next is taken from the Seeker, i.e. it
is the schedule occurrence after the previously scheduled fire time; the
timer delay is next minus the completion moment datetime.now(), and
loop.call_later runs a non-positive delay immediately, so the timer fires
at max(next, completion). -/
def cronNextFireTime (lastScheduledFire : Nat) (completion : Nat) : Nat :=
  let next := nextOccurrence60 lastScheduledFire
  let delay : Int := (next : Int) - (completion : Int)
  completion + (max delay 0).toNat

/-- Cancellation and termination side effects of SignalBotImpl.stop,
counted: how often each kind of cancellation was issued. -/
structure StopEffects where
  stoppingSet : Bool
  cronCancels : Nat
  terminateCalls : Nat
  cancelableCancels : Nat
deriving DecidableEq

/-- Embeds SignalBotImpl.stop (lines 56-74) run to completion without
interleaving: the guard at line 57 returns early when the stopping flag
is set; otherwise the flag is set (line 61), every armed cron timer is
cancelled, the transport is terminated, every cancelable is cancelled and
awaited, and the flag is cleared again at line 74.  timers and
cancelables are the respective counts at the time of the call. -/
def stopRunToCompletion (timers cancelables : Nat) (s : StopEffects) : StopEffects :=
  if s.stoppingSet then s
  else
    { stoppingSet := false,
      cronCancels := s.cronCancels + timers,
      terminateCalls := s.terminateCalls + 1,
      cancelableCancels := s.cancelableCancels + cancelables }

/-- Embeds the prefix of SignalBotImpl.stop up to its first suspension:
the guard at line 57 and the flag set at line 61.  A stop() call that
starts while another stop() is between lines 61 and 74 observes the flag
set and returns immediately (second component false). -/
def stopEnter (s : StopEffects) : StopEffects × Bool :=
  if s.stoppingSet then (s, false)
  else ({ s with stoppingSet := true }, true)

/-- One outstanding waiter of the class-level SignalBotImpl.__WAITERS
dictionary (line 195): the identity of the key object() and the request
id captured by the check_return closure. -/
structure WaiterEntry where
  key : Nat
  requestId : String
deriving DecidableEq

/-- State held in class-level attributes of SignalBotImpl, shared by every
instance in the process: the __WAITERS dictionary (line 195) and the
__stopping event (line 28); neither is ever rebound on an instance, so
attribute lookup through self reaches the class attribute. -/
structure ProcessSharedState where
  waiters : List WaiterEntry
  stoppingSet : Bool
deriving DecidableEq

/-- State that SignalBotImpl.__init__ (lines 31-37) installs per
instance: the account and the instance-owned cancelable list. -/
structure InstanceState where
  account : String
  cancelableCount : Nat
deriving DecidableEq

/-- Embeds the waiter registration of __json_rpc (lines 212-239) as seen
by the shared table: self.__WAITERS[key] = check_return appends the new
key with its captured request id to the one class-level dictionary, and
the timer handle plus the write task join the instance's cancelable
list. -/
def jsonRpcRegister (shared : ProcessSharedState) (inst : InstanceState)
    (key : Nat) (requestId : String) : ProcessSharedState × InstanceState :=
  ({ shared with waiters := shared.waiters ++ [⟨key, requestId⟩] },
   { inst with cancelableCount := inst.cancelableCount + 2 })

/-- Removal of the first waiter whose predicate matches a response id. -/
def removeFirstMatching : List WaiterEntry → String → List WaiterEntry
  | [], _ => []
  | w :: rest, rid =>
      if w.requestId = rid then rest else w :: removeFirstMatching rest rid

/-- Embeds SignalBotImpl.handle_response (lines 138-141): the first entry
of the class-level waiter table whose checker matches the response id is
deleted; check_return's predicate is id equality (line 224).  The
instance through which the method is invoked plays no part in the
lookup. -/
def handleResponseShared (shared : ProcessSharedState) (_inst : InstanceState)
    (responseId : String) : ProcessSharedState :=
  { shared with waiters := removeFirstMatching shared.waiters responseId }

/-- Embeds the stopping-flag guard of stop() against the class-level
__stopping event: set() at line 61 is visible to every instance. -/
def stopEnterShared (shared : ProcessSharedState) : ProcessSharedState × Bool :=
  if shared.stoppingSet then (shared, false)
  else ({ shared with stoppingSet := true }, true)

/-- Resolution state of the Future created by __json_rpc (line 211). -/
inductive FutState where
  | pending
  | resultSet
  | rpcErrorSet
  | timeoutSet
deriving DecidableEq

/-- Per-request state of one __json_rpc call: whether the waiter is still
registered, the future's resolution state, whether the 5-second timer is
still armed, whether stop() has run, and how many times the result sink
was set. -/
structure ReqState where
  waiterPresent : Bool
  fut : FutState
  timerActive : Bool
  stopped : Bool
  setCount : Nat
deriving DecidableEq

/-- State right after __json_rpc returns: waiter registered (line 237),
future pending, the 5-second timeout armed (line 220). -/
def initReq : ReqState :=
  { waiterPresent := true, fut := FutState.pending, timerActive := true,
    stopped := false, setCount := 0 }

/-- Events that can touch one pending request: an inbound response frame
with some id (carrying an error object or not), the timeout firing, and
session stop.  Each runs atomically on the single cooperative loop. -/
inductive RpcEvent where
  | response (rid : String) (isErr : Bool)
  | timerFire
  | stopEvent
deriving DecidableEq

/-- Embeds the three code paths that can resolve or cancel one pending
request.  response: handle_response (lines 138-141) consults the waiter
only while it is registered, and check_return (lines 223-235) resolves
the future to a SignalRpcException or to the result, cancels the timer
and is removed.  timerFire: cancel_timer (lines 214-218) runs only if the
timer is still armed, and only a pending future is failed with
TimeoutError and its waiter popped.  stopEvent: stop() (lines 68-70)
cancels the timer handle (and the write task) but neither resolves the
future nor removes the waiter. -/
def stepReq (reqId : String) (s : ReqState) : RpcEvent → ReqState
  | RpcEvent.response rid isErr =>
      if s.waiterPresent && rid == reqId then
        { waiterPresent := false,
          fut := if isErr then FutState.rpcErrorSet else FutState.resultSet,
          timerActive := false,
          stopped := s.stopped,
          setCount := s.setCount + 1 }
      else s
  | RpcEvent.timerFire =>
      if s.timerActive then
        if s.fut == FutState.pending then
          { waiterPresent := false, fut := FutState.timeoutSet,
            timerActive := false, stopped := s.stopped,
            setCount := s.setCount + 1 }
        else { s with timerActive := false }
      else s
  | RpcEvent.stopEvent =>
      { s with timerActive := false, stopped := true }

/-- Runs a trace of events against one freshly sent request. -/
def runReq (reqId : String) (events : List RpcEvent) : ReqState :=
  events.foldl (stepReq reqId) initReq

/-- Whether an event resolves a pending request with this id: a response
frame whose id matches, or the timeout firing. -/
def isResolvingEvent (reqId : String) : RpcEvent → Bool
  | RpcEvent.response rid _ => rid == reqId
  | RpcEvent.timerFire => true
  | RpcEvent.stopEvent => false

/-- The fixed RPC timeout of __json_rpc line 220, in seconds. -/
def rpcTimeoutSeconds : ℚ := 5

/-- Python re word character (ASCII range): letters, digits, underscore.
Used by the word-boundary assertion.  Python's default is the Unicode
rule, which agrees with this on the ASCII keywords and texts this
development evaluates. -/
def isWordChar (c : Char) : Bool :=
  c.isAlpha || c.isDigit || c == '_'

/-- Character comparison under the optional IGNORECASE flag (ASCII case
folding, which agrees with Python's on ASCII). -/
def charEq (caseSensitive : Bool) (a b : Char) : Bool :=
  if caseSensitive then a == b else a.toLower == b.toLower

/-- Match the literal keyword characters at the head of the text; on
success return the remaining text after the match. -/
def literalMatch (caseSensitive : Bool) : List Char → List Char → Option (List Char)
  | text, [] => some text
  | [], _ :: _ => none
  | t :: ts, k :: ks =>
      if charEq caseSensitive t k then literalMatch caseSensitive ts ks else none

/-- Word-character test lifted to the optional characters at the string
edges: past-the-edge counts as a non-word position. -/
def optWordChar : Option Char → Bool
  | none => false
  | some c => isWordChar c

/-- A word boundary sits between two positions exactly when their word
characterness differs (the semantics of the regex boundary metacharacter). -/
def boundaryBetween (l r : Option Char) : Bool :=
  optWordChar l != optWordChar r

/-- Whether the compiled keyword pattern matches starting exactly at the
current position, whose left neighbour character is prev.  For a
whole-word pattern the match must additionally be flanked by word
boundaries computed from the text characters around the matched span. -/
def matchHere (caseSensitive wholeWord : Bool) (kw : List Char)
    (prev : Option Char) (text : List Char) : Bool :=
  match literalMatch caseSensitive text kw with
  | none => false
  | some rest =>
      if wholeWord then
        match kw with
        | [] => boundaryBetween prev text.head?
        | _ :: _ =>
            boundaryBetween prev text.head? &&
            boundaryBetween (text.take kw.length).getLast? rest.head?
      else true

/-- Scan of re.Pattern.search: try a match at every position from left to
right, carrying the previous character for the boundary assertion. -/
def reSearchAux (caseSensitive wholeWord : Bool) (kw : List Char) :
    Option Char → List Char → Bool
  | prev, [] => matchHere caseSensitive wholeWord kw prev []
  | prev, c :: rest =>
      matchHere caseSensitive wholeWord kw prev (c :: rest) ||
      reSearchAux caseSensitive wholeWord kw (some c) rest

/-- Embeds the pattern build and search of personality.py lines 107-110:
re.escape makes the keyword a literal; the pattern is the literal wrapped
in word-boundary assertions when whole_word, compiled with IGNORECASE
unless case_sensitive, and searched over the message text. -/
def keywordSearch (keyword : String) (caseSensitive wholeWord : Bool)
    (text : String) : Bool :=
  reSearchAux caseSensitive wholeWord keyword.data none text.data

/-- The hook-table key of a keyword registration: the exact 3-tuple
(keyword, case_sensitive, whole_word). -/
abbrev KeywordKey := String × Bool × Bool

/-- A compiled keyword pattern as the cache stores it: the escaped
literal, whether it is word-boundary-wrapped, and whether IGNORECASE was
set. -/
structure CompiledPatternM where
  literal : String
  wordBounded : Bool
  ignoreCase : Bool
deriving DecidableEq

/-- Embeds the re.compile call of personality.py line 107 for the key
(keyword, case_sensitive, whole_word). -/
def compileKeyword (k : KeywordKey) : CompiledPatternM :=
  { literal := k.1, wordBounded := k.2.2, ignoreCase := !k.2.1 }

/-- Search with a compiled pattern. -/
def patternSearch (p : CompiledPatternM) (text : String) : Bool :=
  reSearchAux (!p.ignoreCase) p.wordBounded p.literal.data none text.data

/-- Embeds the lazy pattern cache of personality.py lines 104-108: a hit
on the exact 3-tuple key returns the cached pattern unchanged; a miss
compiles the pattern and stores it under that key. -/
def cacheLookup (cache : List (KeywordKey × CompiledPatternM)) (k : KeywordKey) :
    CompiledPatternM × List (KeywordKey × CompiledPatternM) :=
  match cache.find? (fun e => e.1 = k) with
  | some e => (e.2, cache)
  | none => (compileKeyword k, cache ++ [(k, compileKeyword k)])

/-- Generic insertion-ordered dict set for the hook tables (same CPython
dict semantics as dictSet). -/
def assocSet {κ α : Type} [DecidableEq κ] : List (κ × α) → κ → α → List (κ × α)
  | [], k, v => [(k, v)]
  | (k0, v0) :: rest, k, v =>
      if k0 = k then (k0, v) :: rest else (k0, v0) :: assocSet rest k v

/-- One mention entry of a DataMessage; the dispatch loop reads its
number field (personality.py line 97). -/
structure MentionM where
  number : String
deriving DecidableEq

/-- The DataMessage fields the dispatch chain reads: optional text body,
optional mention list, and the group info driving context construction. -/
structure DataMessageM where
  message : Option String
  mentions : Option (List MentionM)
  groupInfo : Option String
  sender : String
  sourceName : String
deriving DecidableEq

/-- Hook tables of one Personality (signal_bot personality.py lines
27-36, identical in signal_bot_framework): hooks are identified by
numeric ids and behave per the environment passed to dispatch. -/
structure PersonalityState where
  messageHooks : List Nat
  prefixHooks : List (String × Nat)
  keywordHooks : List (KeywordKey × Nat)
  keywordCache : List (KeywordKey × CompiledPatternM)
  mentionHooks : List (String × Nat)
  contexts : List String

/-- Embeds Personality.on_keyword (signal_bot personality.py lines
132-133): the callback is stored under the exact 3-tuple key; the Python
defaults are case_sensitive false and whole_word true. -/
def onKeyword (p : PersonalityState) (keyword : String) (hook : Nat)
    (caseSensitive wholeWord : Bool) : PersonalityState :=
  { p with keywordHooks := assocSet p.keywordHooks (keyword, caseSensitive, wholeWord) hook }

/-- Truthiness of message.mentions in line 97: None and the empty list
are falsy. -/
def mentionsTruthy : Option (List MentionM) → Bool
  | none => false
  | some l => !l.isEmpty

/-- Tier 1 of _personality_handle_message (lines 90-93): prefix hooks in
table order, invoked when the text starts with the prefix; the pair
returned is the handled flag and the ordered ids of invoked hooks. -/
def runPrefixTier (env : Nat → Bool) (text : String) :
    List (String × Nat) → Bool × List Nat
  | [] => (false, [])
  | (pfx, h) :: rest =>
      if text.startsWith pfx then
        if env h then (true, [h])
        else
          let r := runPrefixTier env text rest
          (r.1, h :: r.2)
      else runPrefixTier env text rest

/-- Tier 2 of _personality_handle_message (lines 96-98): mention hooks,
invoked when the mention list is truthy and some mention number equals
the registered account. -/
def runMentionTier (env : Nat → Bool) (mentions : Option (List MentionM)) :
    List (String × Nat) → Bool × List Nat
  | [] => (false, [])
  | (acct, h) :: rest =>
      if mentionsTruthy mentions &&
         (mentions.getD []).any (fun mn => mn.number == acct) then
        if env h then (true, [h])
        else
          let r := runMentionTier env mentions rest
          (r.1, h :: r.2)
      else runMentionTier env mentions rest

/-- Tier 3 of _personality_handle_message (lines 101-111): keyword hooks;
each key is compiled through the cache (threaded through the fold) and
its pattern searched over the text. -/
def runKeywordTier (env : Nat → Bool) (text : String) :
    List (KeywordKey × Nat) → List (KeywordKey × CompiledPatternM) →
    Bool × List Nat × List (KeywordKey × CompiledPatternM)
  | [], cache => (false, [], cache)
  | (k, h) :: rest, cache =>
      let pc := cacheLookup cache k
      if patternSearch pc.1 text then
        if env h then (true, [h], pc.2)
        else
          let r := runKeywordTier env text rest pc.2
          (r.1, h :: r.2.1, r.2.2)
      else runKeywordTier env text rest pc.2

/-- Tier 4 of _personality_handle_message (lines 114-116): every
catch-all hook in registration order. -/
def runCatchAllTier (env : Nat → Bool) : List Nat → Bool × List Nat
  | [] => (false, [])
  | h :: rest =>
      if env h then (true, [h])
      else
        let r := runCatchAllTier env rest
        (r.1, h :: r.2)

/-- Embeds Personality._personality_handle_message (signal_bot
personality.py lines 88-118; the signal_bot_framework
personality_handle_message, lines 114-159, has the identical body):
prefix hooks, then mention hooks, then keyword hooks, then catch-all
hooks; the text-gated tiers are skipped when the message body is None;
the first hook returning true short-circuits everything after it.
Returns the handled flag, the ordered ids of the invoked hooks, and the
updated keyword pattern cache. -/
def personalityHandleMessage (env : Nat → Bool) (p : PersonalityState)
    (msg : DataMessageM) :
    Bool × List Nat × List (KeywordKey × CompiledPatternM) :=
  let t1 := match msg.message with
    | some text => runPrefixTier env text p.prefixHooks
    | none => (false, [])
  if t1.1 then (true, t1.2, p.keywordCache)
  else
    let t2 := runMentionTier env msg.mentions p.mentionHooks
    if t2.1 then (true, t1.2 ++ t2.2, p.keywordCache)
    else
      let t3 := match msg.message with
        | some text => runKeywordTier env text p.keywordHooks p.keywordCache
        | none => (false, [], p.keywordCache)
      if t3.1 then (true, t1.2 ++ t2.2 ++ t3.2.1, t3.2.2)
      else
        let t4 := runCatchAllTier env p.messageHooks
        (t4.1, t1.2 ++ t2.2 ++ t3.2.1 ++ t4.2, t3.2.2)

/-- Spec-side description of the dispatch order (written from the claim,
for comparison with the embedding): the ids of all hooks whose guard
matches the message, in the fixed tier order prefix, mention, keyword,
catch-all, each tier in table order. -/
def eligibleHooks (p : PersonalityState) (msg : DataMessageM) : List Nat :=
  (match msg.message with
   | some text => ((p.prefixHooks.filter (fun ph => text.startsWith ph.1)).map
       (fun ph => ph.2))
   | none => []) ++
  ((p.mentionHooks.filter (fun ah => mentionsTruthy msg.mentions &&
      (msg.mentions.getD []).any (fun mn => mn.number == ah.1))).map
    (fun ah => ah.2)) ++
  (match msg.message with
   | some text => ((p.keywordHooks.filter (fun kh =>
       keywordSearch kh.1.1 kh.1.2.1 kh.1.2.2 text)).map (fun kh => kh.2))
   | none => []) ++
  p.messageHooks

/-- Spec-side first-match truncation: the hooks actually invoked are the
eligible ones up to and including the first whose callback returns
true. -/
def takeThroughFirstHit (env : Nat → Bool) : List Nat → List Nat
  | [] => []
  | h :: rest => if env h then [h] else h :: takeThroughFirstHit env rest

/-- Every cache entry stores the compilation of its own key; this holds
for every cache the code can build, since entries are only ever inserted
by the miss branch of the lookup. -/
def CacheWF (cache : List (KeywordKey × CompiledPatternM)) : Prop :=
  ∀ e ∈ cache, e.2 = compileKeyword e.1

/-- Embeds the personality loop of SignalBotImpl.__handle_data_message
(lines 189-193): registered personalities in order; a personality's
dispatch runs only when its matches_context (the signal_bot revision)
accepts the context, and the first dispatch returning true stops the
loop.  Returns the index of the handling personality (if any) and the
indices whose dispatch ran, counting from i. -/
def dispatchGroupsFrom (env : Nat → Bool) (msg : DataMessageM) (ctx : ContextM) :
    Nat → List PersonalityState → Option Nat × List Nat
  | _, [] => (none, [])
  | i, p :: rest =>
      if matchesContextImpl p.contexts ctx then
        if (personalityHandleMessage env p msg).1 then (some i, [i])
        else
          let r := dispatchGroupsFrom env msg ctx (i + 1) rest
          (r.1, i :: r.2)
      else dispatchGroupsFrom env msg ctx (i + 1) rest

/-- Embeds SignalBotImpl.__handle_data_message (lines 189-193) including
the root fallback: if no registered personality handled the message, the
root's own dispatch runs unconditionally.  Returns whether anything
handled the message, the registered indices whose dispatch ran, and
whether the root fallback ran. -/
def handleDataMessageGroups (env : Nat → Bool) (ps : List PersonalityState)
    (root : PersonalityState) (msg : DataMessageM) (ctx : ContextM) :
    Bool × List Nat × Bool :=
  let r := dispatchGroupsFrom env msg ctx 0 ps
  match r.1 with
  | some _ => (true, r.2, false)
  | none => ((personalityHandleMessage env root msg).1, r.2, true)

/-- Sequential composition of two tier results: a handled first tier
short-circuits, otherwise its invocations precede the second tier's
(the combinator underlying the four-tier dispatch body). -/
def tierSeq (t rest : Bool × List Nat) : Bool × List Nat :=
  if t.1 then (true, t.2) else (rest.1, t.2 ++ rest.2)

/-- Invariant tying the waiter table entry to the future's state: the
waiter is registered exactly while the future is pending, and the result
sink has been set exactly once otherwise. -/
def ReqInv (s : ReqState) : Prop :=
  (s.waiterPresent = true ↔ s.fut = FutState.pending)
  ∧ s.setCount = (if s.fut = FutState.pending then 0 else 1)

/-- Strengthened invariant: while no stop has happened, a pending future
still has its timeout armed. -/
def ReqInvStrong (s : ReqState) : Prop :=
  ReqInv s ∧ (s.stopped = false → s.fut = FutState.pending → s.timerActive = true)

/-- C3 counterexample.  A cron item on the every-60-seconds schedule
whose fire was scheduled at t=60 and whose callback completes at t=70
(a 10-second callback) re-arms for t=120 — the schedule occurrence after
the original fire — and not for t=130 = completion + 60 as the claim
states. -/
theorem cron_refire_not_completion_relative :
    cronNextFireTime 60 70 = 120 ∧ cronNextFireTime 60 70 ≠ 70 + 60 := by
  decide

/-- C3 amended.  After a callback completes at or before the next
schedule occurrence, _cron_repeat re-arms for the next occurrence of the
cron sequence after the originally scheduled fire time (for the
every-60-seconds schedule: exactly 60 seconds after the original fire
when that fire lay on the schedule), independent of the completion
moment; the completion moment only determines the armed delay. -/
theorem cron_refire_schedule_aligned (last comp : Nat)
    (h : comp ≤ nextOccurrence60 last) :
    cronNextFireTime last comp = nextOccurrence60 last
    ∧ (last % 60 = 0 → cronNextFireTime last comp = last + 60) := by
  unfold nextOccurrence60 at h
  simp only [cronNextFireTime, nextOccurrence60]
  constructor
  · omega
  · intro hmod
    omega

/-- C3 witness for the amended theorem at the claim's own numbers. -/
theorem cron_refire_schedule_aligned_witness :
    cronNextFireTime 60 70 = nextOccurrence60 60
    ∧ (60 % 60 = 0 → cronNextFireTime 60 70 = 60 + 60) :=
  cron_refire_schedule_aligned 60 70 (by decide)

/-- C4.  Evaluation of both matches_context revisions at an empty context
filter: the signal_bot revision (personality.py lines 38-39) returns
false on every context when the filter is empty — the claimed match-all
behavior is implemented only by the signal_bot_framework revision
(personality.py line 51).  For non-empty filters the two revisions agree
on subject membership. -/
theorem matches_context_empty_filter_eval :
    matchesContextImpl [] (ContextM.group "G") = false
    ∧ matchesContextFramework [] (ContextM.group "G") = true
    ∧ matchesContextFramework [] (ContextM.individual "+1555" "Alice") = true
    ∧ matchesContextImpl ["A"] (ContextM.individual "A" "Alice") = true
    ∧ matchesContextFramework ["A"] (ContextM.individual "A" "Alice") = true
    ∧ matchesContextImpl ["A"] (ContextM.individual "B" "Bob") = false
    ∧ matchesContextFramework ["A"] (ContextM.individual "B" "Bob") = false := by
  decide

/-- C6.  An envelope whose millisecond timestamp, scaled to seconds, is at
or before the session start time is dropped by __receive before the
payload match: the notification produces the droppedOld action, which is
not the dispatch action, so no hook can be invoked for it. -/
theorem old_envelope_dropped (startSec : ℚ) (e : EnvelopeM)
    (h : (e.timestampMs : ℚ) / 1000 ≤ startSec) :
    receiveStep startSec (some e) = ReceiveAction.droppedOld
    ∧ handleNotificationStep startSec "receive" (some e)
        = NotificationAction.received ReceiveAction.droppedOld
    ∧ receiveStep startSec (some e) ≠ ReceiveAction.dataDispatched := by
  refine ⟨?_, ?_, ?_⟩ <;> simp [receiveStep, handleNotificationStep, h]

/-- C6 witness: a data message stamped exactly at the session start (100
seconds = 100000 ms) is dropped. -/
theorem old_envelope_dropped_witness :
    receiveStep 100 (some ⟨100000, false, true⟩) = ReceiveAction.droppedOld
    ∧ handleNotificationStep 100 "receive" (some ⟨100000, false, true⟩)
        = NotificationAction.received ReceiveAction.droppedOld
    ∧ receiveStep 100 (some ⟨100000, false, true⟩) ≠ ReceiveAction.dataDispatched :=
  old_envelope_dropped 100 ⟨100000, false, true⟩ (by norm_num)

/-- C8 counterexample.  stop() clears the stopping flag again on its last
line, so a second stop() issued sequentially after the first completed
repeats every cancellation side effect: with 3 armed timers and 2
cancelables, two sequential calls terminate the transport twice and
issue 6 timer cancellations. -/
theorem stop_twice_counterexample :
    (stopRunToCompletion 3 2 (stopRunToCompletion 3 2 ⟨false, 0, 0, 0⟩)).terminateCalls = 2
    ∧ (stopRunToCompletion 3 2 (stopRunToCompletion 3 2 ⟨false, 0, 0, 0⟩)).cronCancels = 6
    ∧ (stopRunToCompletion 3 2 (stopRunToCompletion 3 2 ⟨false, 0, 0, 0⟩)).cancelableCancels = 4 := by
  decide

/-- C8 amended.  The one-shot guard protects only a stop() that begins
while another stop() is still in progress (the flag is set between lines
61 and 74): such a call is a complete no-op.  Because line 74 clears the
flag on completion, a stop() that runs to completion leaves the flag
clear, and a second sequential call repeats the transport termination,
the cron-timer cancellations and the cancelable cancellations. -/
theorem stop_guard_only_while_running (timers cancelables : Nat)
    (s : StopEffects) (h : s.stoppingSet = true) :
    stopRunToCompletion timers cancelables s = s
    ∧ stopEnter s = (s, false)
    ∧ (∀ t c s0, s0.stoppingSet = false →
        (stopRunToCompletion t c s0).stoppingSet = false
        ∧ (stopRunToCompletion t c (stopRunToCompletion t c s0)).terminateCalls
            = s0.terminateCalls + 2
        ∧ (stopRunToCompletion t c (stopRunToCompletion t c s0)).cronCancels
            = s0.cronCancels + t + t
        ∧ (stopRunToCompletion t c (stopRunToCompletion t c s0)).cancelableCancels
            = s0.cancelableCancels + c + c) := by
  refine ⟨?_, ?_, ?_⟩
  · simp [stopRunToCompletion, h]
  · simp [stopEnter, h]
  · intro t c s0 h0
    simp [stopRunToCompletion, h0]
    try omega

/-- C8 witness for the amended theorem at an in-progress state. -/
theorem stop_guard_only_while_running_witness :
    stopRunToCompletion 3 2 ⟨true, 1, 1, 1⟩ = ⟨true, 1, 1, 1⟩
    ∧ stopEnter ⟨true, 1, 1, 1⟩ = (⟨true, 1, 1, 1⟩, false)
    ∧ (∀ t c s0, s0.stoppingSet = false →
        (stopRunToCompletion t c s0).stoppingSet = false
        ∧ (stopRunToCompletion t c (stopRunToCompletion t c s0)).terminateCalls
            = s0.terminateCalls + 2
        ∧ (stopRunToCompletion t c (stopRunToCompletion t c s0)).cronCancels
            = s0.cronCancels + t + t
        ∧ (stopRunToCompletion t c (stopRunToCompletion t c s0)).cancelableCancels
            = s0.cancelableCancels + c + c) :=
  stop_guard_only_while_running 3 2 ⟨true, 1, 1, 1⟩ rfl

/-- C2 counterexample.  A line that is not valid JSON makes json.loads
raise; the listen loops catch only CancelledError, so the decode failure
aborts the loop: the malformed line is not skipped and the following
well-formed line is never dispatched. -/
theorem listen_malformed_counterexample :
    listenRun [LineM.malformed, LineM.decoded ⟨false, false, none, some "receive"⟩]
      = Except.error ()
    ∧ listenRun [LineM.malformed, LineM.decoded ⟨false, false, none, some "receive"⟩]
      ≠ Except.ok (dispatchedOfLines
          [LineM.malformed, LineM.decoded ⟨false, false, none, some "receive"⟩]) := by
  refine ⟨rfl, ?_⟩
  intro hcontra
  simp [listenRun, dispatchedOfLines] at hcontra

/-- C2 amended.  The first malformed line terminates the listen loop with
the propagated decode failure, whatever follows it; a stream with no
malformed line is fully consumed and each decoded frame is dispatched by
the result-or-error classification. -/
theorem listen_malformed_propagates (pre rest lines : List LineM)
    (hpre : LineM.malformed ∉ pre) (hlines : LineM.malformed ∉ lines) :
    listenRun (pre ++ LineM.malformed :: rest) = Except.error ()
    ∧ listenRun lines = Except.ok (dispatchedOfLines lines) := by
  constructor
  · induction pre with
    | nil => rfl
    | cons l pre ih =>
        have hl : l ≠ LineM.malformed := fun h => hpre (h ▸ List.mem_cons_self l pre)
        have hpre' : LineM.malformed ∉ pre := fun h => hpre (List.mem_cons_of_mem l h)
        cases l with
        | timeoutNone => simpa [listenRun] using ih hpre'
        | malformed => exact absurd rfl hl
        | decoded f => simp [listenRun, ih hpre', Except.map]
  · induction lines with
    | nil => rfl
    | cons l ls ih =>
        have hl : l ≠ LineM.malformed := fun h => hlines (h ▸ List.mem_cons_self l ls)
        have hls : LineM.malformed ∉ ls := fun h => hlines (List.mem_cons_of_mem l h)
        cases l with
        | timeoutNone => simpa [listenRun, dispatchedOfLines] using ih hls
        | malformed => exact absurd rfl hl
        | decoded f => simp [listenRun, dispatchedOfLines, ih hls, Except.map]

/-- C2 witness for the amended theorem: one poll timeout before the
malformed line, and a malformed-free stream of one response frame. -/
theorem listen_malformed_propagates_witness :
    listenRun ([LineM.timeoutNone] ++ LineM.malformed :: [])
      = Except.error ()
    ∧ listenRun [LineM.decoded ⟨true, false, some "1", none⟩]
      = Except.ok (dispatchedOfLines [LineM.decoded ⟨true, false, some "1", none⟩]) :=
  listen_malformed_propagates [LineM.timeoutNone] []
    [LineM.decoded ⟨true, false, some "1", none⟩] (by simp) (by simp)

/-- C9.  The waiter table and the stopping flag live in class-level
attributes, so they are one per process, not one per instance: a waiter
registered through instance ia is appended to the shared table, a
handle_response invocation through a different instance ib matches and
removes it, handle_response ignores which instance it is invoked
through, and a stop() through ia makes a concurrent stop() through ib
observe the flag already set. -/
theorem waiter_table_shared_across_instances (shared : ProcessSharedState)
    (ia ib : InstanceState) (key : Nat) (rid : String)
    (hfresh : ∀ w ∈ shared.waiters, w.requestId ≠ rid) :
    (jsonRpcRegister shared ia key rid).1.waiters = shared.waiters ++ [⟨key, rid⟩]
    ∧ handleResponseShared (jsonRpcRegister shared ia key rid).1 ib rid = shared
    ∧ (∀ s rid2, handleResponseShared s ia rid2 = handleResponseShared s ib rid2)
    ∧ (shared.stoppingSet = false →
        stopEnterShared (stopEnterShared shared).1 = ((stopEnterShared shared).1, false)) := by
  refine ⟨rfl, ?_, fun s rid2 => rfl, ?_⟩
  · have hrm : ∀ ws : List WaiterEntry, (∀ w ∈ ws, w.requestId ≠ rid) →
        removeFirstMatching (ws ++ [⟨key, rid⟩]) rid = ws := by
      intro ws
      induction ws with
      | nil => intro _; simp [removeFirstMatching]
      | cons w ws ih =>
          intro hw
          have hwne : w.requestId ≠ rid := hw w (List.mem_cons_self w ws)
          have hrest : ∀ w2 ∈ ws, w2.requestId ≠ rid :=
            fun w2 hm => hw w2 (List.mem_cons_of_mem w hm)
          simp [removeFirstMatching, hwne, ih hrest]
    simp [handleResponseShared, jsonRpcRegister, hrm shared.waiters hfresh]
  · intro hns
    simp [stopEnterShared, hns]

/-- C9 witness: a fresh shared state, two distinct instances. -/
theorem waiter_table_shared_across_instances_witness :
    (jsonRpcRegister ⟨[], false⟩ ⟨"+1", 0⟩ 7 "r1").1.waiters = [] ++ [⟨7, "r1"⟩]
    ∧ handleResponseShared (jsonRpcRegister ⟨[], false⟩ ⟨"+1", 0⟩ 7 "r1").1 ⟨"+2", 0⟩ "r1"
        = ⟨[], false⟩
    ∧ (∀ s rid2, handleResponseShared s ⟨"+1", 0⟩ rid2 = handleResponseShared s ⟨"+2", 0⟩ rid2)
    ∧ ((⟨[], false⟩ : ProcessSharedState).stoppingSet = false →
        stopEnterShared (stopEnterShared ⟨[], false⟩).1
          = ((stopEnterShared ⟨[], false⟩).1, false)) :=
  waiter_table_shared_across_instances ⟨[], false⟩ ⟨"+1", 0⟩ ⟨"+2", 0⟩ 7 "r1" (by simp)

/-- Setting a key different from k2 does not change whether k2 is
present. -/
theorem dictHasKey_dictSet_ne (d : List (String × JVal)) (k k2 : String)
    (v : JVal) (h : k ≠ k2) :
    dictHasKey (dictSet d k v) k2 = dictHasKey d k2 := by
  induction d with
  | nil => simp [dictSet, dictHasKey, h]
  | cons kv d ih =>
      obtain ⟨k0, v0⟩ := kv
      by_cases hk : k0 = k
      · simp [dictSet, dictHasKey, hk]
      · simp only [dictHasKey] at ih
        simp [dictSet, dictHasKey, hk, ih]

/-- Updating with entries none of which carries the key k2 does not
change whether k2 is present. -/
theorem dictHasKey_dictUpdate_ne (upd : List (String × JVal))
    (d : List (String × JVal)) (k2 : String)
    (h : ∀ kv ∈ upd, kv.1 ≠ k2) :
    dictHasKey (dictUpdate d upd) k2 = dictHasKey d k2 := by
  induction upd generalizing d with
  | nil => rfl
  | cons kv upd ih =>
      have h1 : kv.1 ≠ k2 := h kv (List.mem_cons_self kv upd)
      have h2 : ∀ kv2 ∈ upd, kv2.1 ≠ k2 := fun kv2 hm => h kv2 (List.mem_cons_of_mem kv hm)
      have hstep : dictUpdate d (kv :: upd) = dictUpdate (dictSet d kv.1 kv.2) upd := rfl
      rw [hstep, ih (dictSet d kv.1 kv.2) h2, dictHasKey_dictSet_ne d kv.1 k2 kv.2 h1]

/-- The keys produced by QuoteMessageArgs.to_args, in order. -/
theorem quoteToArgs_keysList (q : QuoteMessageArgsM) :
    (quoteToArgs q).map (fun e => e.1)
      = if q.message.isSome then
          [toLowerCamelCase "attachments", toLowerCamelCase "author",
           toLowerCamelCase "mention", toLowerCamelCase "message",
           toLowerCamelCase "text_style", toLowerCamelCase "timestamp"]
        else
          [toLowerCamelCase "attachments", toLowerCamelCase "author",
           toLowerCamelCase "mention", toLowerCamelCase "text_style",
           toLowerCamelCase "timestamp"] := by
  cases hm : q.message <;> simp [quoteToArgs, hm]

/-- No entry of SendMessageArgs.to_args carries either destination key. -/
theorem sendMessageArgsToArgs_keys (a : SendMessageArgsM) (kv : String × JVal)
    (h : kv ∈ sendMessageArgsToArgs a) :
    kv.1 ≠ "groupId" ∧ kv.1 ≠ "recipient" := by
  unfold sendMessageArgsToArgs at h
  rw [List.append_assoc, List.append_assoc] at h
  rcases List.mem_append.mp h with h | h
  · cases ha : a.attachment with
    | none => simp [ha] at h
    | some xs =>
        simp [ha] at h
        rw [h]
        exact ⟨show toLowerCamelCase "attachment" ≠ "groupId" by decide,
               show toLowerCamelCase "attachment" ≠ "recipient" by decide⟩
  rcases List.mem_append.mp h with h | h
  · cases ha : a.mention with
    | none => simp [ha] at h
    | some xs =>
        simp [ha] at h
        rw [h]
        exact ⟨show toLowerCamelCase "mention" ≠ "groupId" by decide,
               show toLowerCamelCase "mention" ≠ "recipient" by decide⟩
  rcases List.mem_append.mp h with h | h
  · cases ha : a.textStyle with
    | none => simp [ha] at h
    | some xs =>
        simp [ha] at h
        rw [h]
        exact ⟨show toLowerCamelCase "text_style" ≠ "groupId" by decide,
               show toLowerCamelCase "text_style" ≠ "recipient" by decide⟩
  · cases ha : a.quote with
    | none => simp [ha] at h
    | some q =>
        simp only [ha, List.mem_map] at h
        obtain ⟨e, he, hkv⟩ := h
        have h1 : e.1 ∈ (quoteToArgs q).map (fun x => x.1) :=
          List.mem_map_of_mem _ he
        rw [quoteToArgs_keysList q] at h1
        have hq : ∀ x ∈ [toLowerCamelCase "attachments", toLowerCamelCase "author",
            toLowerCamelCase "mention", toLowerCamelCase "message",
            toLowerCamelCase "text_style", toLowerCamelCase "timestamp"],
            toLowerCamelCase ("quote_" ++ x) ≠ "groupId"
            ∧ toLowerCamelCase ("quote_" ++ x) ≠ "recipient" := by decide
        have h2 : e.1 ∈ [toLowerCamelCase "attachments", toLowerCamelCase "author",
            toLowerCamelCase "mention", toLowerCamelCase "message",
            toLowerCamelCase "text_style", toLowerCamelCase "timestamp"] := by
          by_cases hz : q.message.isSome <;> simp [hz] at h1 <;> simp <;> tauto
        rw [← hkv]
        exact hq e.1 h2

/-- C10.  For each of send_typing, send_message and delete_message, the
request params carry the key groupId exactly when the destination string
has length 44, and the key recipient exactly otherwise; nothing but the
length of the destination decides this, and no other argument (stop
flag, message text, SendMessageArgs fields, target timestamp) can add or
displace either key. -/
theorem rpc_destination_key_by_length (dest : String) (stop : Bool)
    (message : Option String) (args : Option SendMessageArgsM) (ts : Int) :
    ((dictHasKey (sendTypingParams dest stop) "groupId" = true ↔ dest.length = 44)
     ∧ (dictHasKey (sendTypingParams dest stop) "recipient" = true ↔ dest.length ≠ 44))
    ∧ (∀ d, sendMessageParams dest message args = Except.ok d →
        (dictHasKey d "groupId" = true ↔ dest.length = 44)
        ∧ (dictHasKey d "recipient" = true ↔ dest.length ≠ 44))
    ∧ ((dictHasKey (deleteMessageParams dest ts) "groupId" = true ↔ dest.length = 44)
     ∧ (dictHasKey (deleteMessageParams dest ts) "recipient" = true ↔ dest.length ≠ 44)) := by
  have hbaseG : dictHasKey [(destinationKey dest, JVal.jstr dest)] "groupId" = true
      ↔ dest.length = 44 := by
    by_cases hlen : dest.length = 44 <;> simp [destinationKey, dictHasKey, hlen]
  have hbaseR : dictHasKey [(destinationKey dest, JVal.jstr dest)] "recipient" = true
      ↔ dest.length ≠ 44 := by
    by_cases hlen : dest.length = 44 <;> simp [destinationKey, dictHasKey, hlen]
  have hkwG : dictHasKey (sendMessageKwargs dest args) "groupId" = true ↔ dest.length = 44 := by
    cases args with
    | none => exact hbaseG
    | some a =>
        rw [show sendMessageKwargs dest (some a)
              = dictUpdate [(destinationKey dest, JVal.jstr dest)] (sendMessageArgsToArgs a)
            from rfl,
          dictHasKey_dictUpdate_ne _ _ _ (fun kv hm => (sendMessageArgsToArgs_keys a kv hm).1)]
        exact hbaseG
  have hkwR : dictHasKey (sendMessageKwargs dest args) "recipient" = true ↔ dest.length ≠ 44 := by
    cases args with
    | none => exact hbaseR
    | some a =>
        rw [show sendMessageKwargs dest (some a)
              = dictUpdate [(destinationKey dest, JVal.jstr dest)] (sendMessageArgsToArgs a)
            from rfl,
          dictHasKey_dictUpdate_ne _ _ _ (fun kv hm => (sendMessageArgsToArgs_keys a kv hm).2)]
        exact hbaseR
  refine ⟨⟨?_, ?_⟩, ?_, ⟨?_, ?_⟩⟩
  · cases stop with
    | false => exact hbaseG
    | true =>
        rw [show sendTypingParams dest true
              = dictSet [(destinationKey dest, JVal.jstr dest)] "stop" (JVal.jbool true)
            from rfl,
          dictHasKey_dictSet_ne _ _ _ _ (by decide)]
        exact hbaseG
  · cases stop with
    | false => exact hbaseR
    | true =>
        rw [show sendTypingParams dest true
              = dictSet [(destinationKey dest, JVal.jstr dest)] "stop" (JVal.jbool true)
            from rfl,
          dictHasKey_dictSet_ne _ _ _ _ (by decide)]
        exact hbaseR
  · intro d hd
    unfold sendMessageParams at hd
    split at hd
    · exact absurd hd (by simp)
    · have hdval : dictSet (sendMessageKwargs dest args) "message" (messageJVal message) = d := by
        simpa using hd
      constructor
      · rw [← hdval, dictHasKey_dictSet_ne _ _ _ _ (by decide)]
        exact hkwG
      · rw [← hdval, dictHasKey_dictSet_ne _ _ _ _ (by decide)]
        exact hkwR
  · by_cases hlen : dest.length = 44 <;>
      simp [deleteMessageParams, destinationKey, dictHasKey, hlen]
  · by_cases hlen : dest.length = 44 <;>
      simp [deleteMessageParams, destinationKey, dictHasKey, hlen]

/-- C10 witness at the spec's send_message scenario (an individual
recipient of length 12). -/
theorem rpc_destination_key_by_length_witness :
    (dictHasKey [("recipient", JVal.jstr "+15551234567"),
        ("message", JVal.jstr "hi")] "groupId" = true
      ↔ ("+15551234567" : String).length = 44)
    ∧ (dictHasKey [("recipient", JVal.jstr "+15551234567"),
        ("message", JVal.jstr "hi")] "recipient" = true
      ↔ ("+15551234567" : String).length ≠ 44) :=
  (rpc_destination_key_by_length "+15551234567" false (some "hi") none 0).2.1 _ rfl

/-- C7.  With the defaults (case-insensitive, whole-word) the keyword
"cat" matches "I have a cat." and does not match "concatenate"; with
whole_word false it matches "concatenate".  The key (keyword,
case_sensitive, whole_word) compiles to a pattern that is
word-boundary-wrapped iff whole_word and case-insensitive iff not
case_sensitive, searching equivalently to the direct keyword search; the
cache is keyed by the exact 3-tuple: a miss compiles and appends under
that key, a hit returns the cached pattern with the cache unchanged; and
on_keyword with the Python defaults registers under (keyword, false,
true). -/
theorem keyword_matching_and_cache
    (cache : List (KeywordKey × CompiledPatternM)) (k : KeywordKey)
    (p : PersonalityState) (kw : String) (hook : Nat)
    (hmiss : cache.find? (fun e => e.1 = k) = none) :
    keywordSearch "cat" false true "I have a cat." = true
    ∧ keywordSearch "cat" false true "concatenate" = false
    ∧ keywordSearch "cat" false false "concatenate" = true
    ∧ compileKeyword k = ⟨k.1, k.2.2, !k.2.1⟩
    ∧ cacheLookup cache k = (compileKeyword k, cache ++ [(k, compileKeyword k)])
    ∧ (∀ (c2 : List (KeywordKey × CompiledPatternM)) (e : KeywordKey × CompiledPatternM),
        c2.find? (fun x => x.1 = k) = some e → cacheLookup c2 k = (e.2, c2))
    ∧ (∀ text, patternSearch (compileKeyword k) text = keywordSearch k.1 k.2.1 k.2.2 text)
    ∧ (onKeyword p kw hook false true).keywordHooks
        = assocSet p.keywordHooks (kw, false, true) hook := by
  refine ⟨by decide, by decide, by decide, rfl, ?_, ?_, ?_, rfl⟩
  · simp [cacheLookup, hmiss]
  · intro c2 e he
    simp [cacheLookup, he]
  · intro text
    simp [patternSearch, keywordSearch, compileKeyword, Bool.not_not]

/-- C7 witness at an empty cache and the default key for "cat". -/
theorem keyword_matching_and_cache_witness :
    keywordSearch "cat" false true "I have a cat." = true
    ∧ keywordSearch "cat" false true "concatenate" = false
    ∧ keywordSearch "cat" false false "concatenate" = true
    ∧ compileKeyword ("cat", false, true) = ⟨"cat", true, true⟩
    ∧ cacheLookup [] ("cat", false, true)
        = (compileKeyword ("cat", false, true),
           [] ++ [(("cat", false, true), compileKeyword ("cat", false, true))])
    ∧ (∀ (c2 : List (KeywordKey × CompiledPatternM)) (e : KeywordKey × CompiledPatternM),
        c2.find? (fun x => x.1 = ("cat", false, true)) = some e →
        cacheLookup c2 ("cat", false, true) = (e.2, c2))
    ∧ (∀ text, patternSearch (compileKeyword ("cat", false, true)) text
        = keywordSearch "cat" false true text)
    ∧ (onKeyword ⟨[], [], [], [], [], []⟩ "cat" 1 false true).keywordHooks
        = assocSet ([] : List (KeywordKey × Nat)) ("cat", false, true) 1 :=
  keyword_matching_and_cache [] ("cat", false, true) ⟨[], [], [], [], [], []⟩ "cat" 1 rfl

/-- The invariant holds at the moment the request is sent. -/
theorem reqInv_init : ReqInv initReq := by
  simp [ReqInv, initReq]

/-- One event step preserves the waiter/future invariant. -/
theorem reqInv_step (reqId : String) (s : ReqState) (e : RpcEvent)
    (h : ReqInv s) : ReqInv (stepReq reqId s e) := by
  obtain ⟨h1, h2⟩ := h
  cases e with
  | response rid isErr =>
      by_cases hg : s.waiterPresent && rid == reqId
      · have hand := hg
        rw [Bool.and_eq_true] at hand
        have hw : s.waiterPresent = true := hand.1
        have hp : s.fut = FutState.pending := h1.mp hw
        have hs0 : s.setCount = 0 := by simpa [hp] using h2
        cases isErr <;> simp [stepReq, hg, ReqInv, hs0]
      · simpa [stepReq, hg] using ⟨h1, h2⟩
  | timerFire =>
      by_cases ht : s.timerActive
      · by_cases hp : s.fut = FutState.pending
        · have hs0 : s.setCount = 0 := by simpa [hp] using h2
          simp [stepReq, ht, hp, ReqInv, hs0]
        · have hpb : (s.fut == FutState.pending) = false := by
            simpa using hp
          simp [stepReq, ht, hpb, ReqInv, h1, h2, hp]
      · simpa [stepReq, ht] using ⟨h1, h2⟩
  | stopEvent =>
      simpa [stepReq, ReqInv] using ⟨h1, h2⟩

/-- One event step preserves the strengthened invariant as well. -/
theorem reqInvStrong_step (reqId : String) (s : ReqState) (e : RpcEvent)
    (h : ReqInvStrong s) : ReqInvStrong (stepReq reqId s e) := by
  obtain ⟨hinv, htimer⟩ := h
  refine ⟨reqInv_step reqId s e hinv, ?_⟩
  cases e with
  | response rid isErr =>
      by_cases hg : s.waiterPresent && rid == reqId
      · cases isErr <;> simp [stepReq, hg]
      · simpa [stepReq, hg] using htimer
  | timerFire =>
      by_cases ht : s.timerActive
      · by_cases hp : s.fut = FutState.pending
        · simp [stepReq, ht, hp]
        · have hpb : (s.fut == FutState.pending) = false := by simpa using hp
          simp [stepReq, ht, hpb]
          intro _ hps
          exact absurd hps hp
      · have hstep : stepReq reqId s RpcEvent.timerFire = s := by
          simp [stepReq, ht]
        rw [hstep]
        exact htimer
  | stopEvent =>
      simp [stepReq]

/-- The strengthened invariant carries over a whole trace. -/
theorem reqInvStrong_foldl (reqId : String) (events : List RpcEvent)
    (s : ReqState) (h : ReqInvStrong s) :
    ReqInvStrong (events.foldl (stepReq reqId) s) := by
  induction events generalizing s with
  | nil => exact h
  | cons e rest ih => exact ih (stepReq reqId s e) (reqInvStrong_step reqId s e h)

/-- Once the future is resolved, no later event changes it or sets the
result sink again: a resolution attempt after the first is a no-op. -/
theorem stepReq_after_resolved (reqId : String) (s : ReqState) (e : RpcEvent)
    (hinv : ReqInv s) (hres : s.fut ≠ FutState.pending) :
    (stepReq reqId s e).fut = s.fut ∧ (stepReq reqId s e).setCount = s.setCount := by
  obtain ⟨h1, _⟩ := hinv
  have hw : s.waiterPresent = false := by
    cases hwp : s.waiterPresent
    · rfl
    · exact absurd (h1.mp hwp) hres
  cases e with
  | response rid isErr => simp [stepReq, hw]
  | timerFire =>
      have hpb : (s.fut == FutState.pending) = false := by simpa using hres
      by_cases ht : s.timerActive <;> simp [stepReq, ht, hpb]
  | stopEvent => simp [stepReq]

/-- Trace version of the preceding lemma. -/
theorem foldl_after_resolved (reqId : String) (events : List RpcEvent)
    (s : ReqState) (hinv : ReqInv s) (hres : s.fut ≠ FutState.pending) :
    (events.foldl (stepReq reqId) s).fut = s.fut
    ∧ (events.foldl (stepReq reqId) s).setCount = s.setCount := by
  induction events generalizing s with
  | nil => exact ⟨rfl, rfl⟩
  | cons e rest ih =>
      obtain ⟨hf, hc⟩ := stepReq_after_resolved reqId s e hinv hres
      have hinv' := reqInv_step reqId s e hinv
      have hres' : (stepReq reqId s e).fut ≠ FutState.pending := hf ▸ hres
      obtain ⟨hf2, hc2⟩ := ih (stepReq reqId s e) hinv' hres'
      exact ⟨hf2.trans hf, hc2.trans hc⟩

/-- If no stop occurs and some event of the trace is resolving (a
matching response or the timeout firing), the future ends resolved. -/
theorem foldl_resolves (reqId : String) (events : List RpcEvent) (s : ReqState)
    (h : ReqInvStrong s) (hstop : s.stopped = false)
    (hnostop : RpcEvent.stopEvent ∉ events)
    (hres : events.any (isResolvingEvent reqId) = true) :
    (events.foldl (stepReq reqId) s).fut ≠ FutState.pending := by
  induction events generalizing s with
  | nil => simp at hres
  | cons e rest ih =>
      have hne : e ≠ RpcEvent.stopEvent :=
        fun hh => hnostop (hh ▸ List.mem_cons_self e rest)
      have hnostop' : RpcEvent.stopEvent ∉ rest :=
        fun hh => hnostop (List.mem_cons_of_mem e hh)
      by_cases hr : isResolvingEvent reqId e = true
      · by_cases hp : s.fut = FutState.pending
        · have hstep : (stepReq reqId s e).fut ≠ FutState.pending := by
            cases e with
            | response rid isErr =>
                have hm : (rid == reqId) = true := by simpa [isResolvingEvent] using hr
                have hw : s.waiterPresent = true := h.1.1.mpr hp
                have hg : (s.waiterPresent && rid == reqId) = true := by
                  simp [hw, hm]
                cases isErr <;> simp [stepReq, hg]
            | timerFire =>
                have ht : s.timerActive = true := h.2 hstop hp
                have hpb : (s.fut == FutState.pending) = true := by simpa using hp
                simp [stepReq, ht, hpb]
            | stopEvent => exact absurd rfl hne
          have hinv' := reqInv_step reqId s e h.1
          exact (foldl_after_resolved reqId rest (stepReq reqId s e) hinv' hstep).1
            ▸ hstep
        · have := (foldl_after_resolved reqId (e :: rest) s h.1 hp).1
          exact this ▸ hp
      · have hid : stepReq reqId s e = s := by
          cases e with
          | response rid isErr =>
              have hm : (rid == reqId) = false := by
                simpa [isResolvingEvent] using hr
              simp [stepReq, hm]
          | timerFire => simp [isResolvingEvent] at hr
          | stopEvent => exact absurd rfl hne
        have hres' : rest.any (isResolvingEvent reqId) = true := by
          rcases List.any_eq_true.mp hres with ⟨x, hx, hxr⟩
          rcases List.mem_cons.mp hx with rfl | hx2
          · exact absurd hxr hr
          · exact List.any_eq_true.mpr ⟨x, hx2, hxr⟩
        rw [List.foldl_cons, hid]
        exact ih s h hstop hnostop' hres'

/-- With no resolving event the request state is untouched except for the
stop bookkeeping: the future stays pending, the sink is never set, the
waiter is leaked, and once a stop event occurred the timer stays
disarmed and the stopped flag stays set. -/
theorem foldl_no_resolve (reqId : String) (events : List RpcEvent) (s : ReqState)
    (hnores : events.any (isResolvingEvent reqId) = false) :
    (events.foldl (stepReq reqId) s).fut = s.fut
    ∧ (events.foldl (stepReq reqId) s).setCount = s.setCount
    ∧ (events.foldl (stepReq reqId) s).waiterPresent = s.waiterPresent
    ∧ (s.stopped = true → (events.foldl (stepReq reqId) s).stopped = true)
    ∧ (s.timerActive = false → (events.foldl (stepReq reqId) s).timerActive = false)
    ∧ (RpcEvent.stopEvent ∈ events →
        (events.foldl (stepReq reqId) s).stopped = true
        ∧ (events.foldl (stepReq reqId) s).timerActive = false) := by
  induction events generalizing s with
  | nil =>
      refine ⟨rfl, rfl, rfl, fun h => h, fun h => h, ?_⟩
      intro hmem
      simp at hmem
  | cons e rest ih =>
      have hre : isResolvingEvent reqId e = false := by
        cases hx : isResolvingEvent reqId e
        · rfl
        · exact absurd (List.any_eq_true.mpr ⟨e, List.mem_cons_self e rest, hx⟩)
            (by simp [hnores])
      have hrest : rest.any (isResolvingEvent reqId) = false := by
        cases hx : rest.any (isResolvingEvent reqId)
        · rfl
        · rcases List.any_eq_true.mp hx with ⟨x, hx2, hxr⟩
          exact absurd (List.any_eq_true.mpr ⟨x, List.mem_cons_of_mem e hx2, hxr⟩)
            (by simp [hnores])
      cases e with
      | response rid isErr =>
          have hm : (rid == reqId) = false := by simpa [isResolvingEvent] using hre
          have hid : stepReq reqId s (RpcEvent.response rid isErr) = s := by
            simp [stepReq, hm]
          have hmem : RpcEvent.stopEvent ∈ RpcEvent.response rid isErr :: rest
              → RpcEvent.stopEvent ∈ rest := by
            intro hmm
            rcases List.mem_cons.mp hmm with hc | hc
            · exact absurd hc.symm (by simp)
            · exact hc
          obtain ⟨a, b, c, d, f, g⟩ := ih s hrest
          rw [List.foldl_cons, hid]
          exact ⟨a, b, c, d, f, fun hmm => g (hmem hmm)⟩
      | timerFire => simp [isResolvingEvent] at hre
      | stopEvent =>
          have hid : stepReq reqId s RpcEvent.stopEvent
              = { s with timerActive := false, stopped := true } := rfl
          obtain ⟨a, b, c, d, f, _⟩ := ih { s with timerActive := false, stopped := true } hrest
          rw [List.foldl_cons, hid]
          exact ⟨a, b, c, fun _ => d rfl, fun _ => f rfl,
            fun _ => ⟨d rfl, f rfl⟩⟩

/-- C1.  Per sent request: the result sink is set at most once over any
event trace; after the first resolution every further event leaves the
future and the set counter untouched (a late response, a late timer fire
or a stop is a no-op on the sink); if no stop occurs and a matching
response arrives or the 5-second timeout fires, the sink is set exactly
once; and if no resolving event occurs the sink is never set, while a
stop event leaves the request cancelled: stop recorded and the timeout
timer disarmed. -/
theorem rpc_request_resolved_exactly_once (reqId : String) (events : List RpcEvent) :
    (runReq reqId events).setCount ≤ 1
    ∧ (∀ more, (runReq reqId events).fut ≠ FutState.pending →
        (runReq reqId (events ++ more)).fut = (runReq reqId events).fut
        ∧ (runReq reqId (events ++ more)).setCount = (runReq reqId events).setCount)
    ∧ (RpcEvent.stopEvent ∉ events → events.any (isResolvingEvent reqId) = true →
        (runReq reqId events).setCount = 1)
    ∧ (events.any (isResolvingEvent reqId) = false →
        (runReq reqId events).setCount = 0
        ∧ (RpcEvent.stopEvent ∈ events →
            (runReq reqId events).stopped = true
            ∧ (runReq reqId events).timerActive = false)) := by
  have hstrong : ReqInvStrong (runReq reqId events) :=
    reqInvStrong_foldl reqId events initReq ⟨reqInv_init, fun _ _ => rfl⟩
  have hinv : ReqInv (runReq reqId events) := hstrong.1
  refine ⟨?_, ?_, ?_, ?_⟩
  · rw [hinv.2]
    split <;> omega
  · intro more hres
    have : runReq reqId (events ++ more)
        = more.foldl (stepReq reqId) (runReq reqId events) := by
      simp [runReq, List.foldl_append]
    rw [this]
    exact foldl_after_resolved reqId more (runReq reqId events) hinv hres
  · intro hnostop hres
    have hfut : (runReq reqId events).fut ≠ FutState.pending :=
      foldl_resolves reqId events initReq ⟨reqInv_init, fun _ _ => rfl⟩ rfl hnostop hres
    rw [hinv.2]
    simp [hfut]
  · intro hnores
    obtain ⟨a, b, _, _, _, g⟩ := foldl_no_resolve reqId events initReq hnores
    exact ⟨b, g⟩

/-- C1 witness: a matching response with no stop resolves exactly once. -/
theorem rpc_request_resolved_exactly_once_witness :
    (runReq "r1" [RpcEvent.response "r1" false]).setCount = 1
    ∧ (runReq "r1" [RpcEvent.response "r1" false, RpcEvent.timerFire]).fut
        = (runReq "r1" [RpcEvent.response "r1" false]).fut
    ∧ (runReq "r1" [RpcEvent.response "r1" false, RpcEvent.timerFire]).setCount
        = (runReq "r1" [RpcEvent.response "r1" false]).setCount := by
  refine ⟨?_, ?_⟩
  · exact (rpc_request_resolved_exactly_once "r1" [RpcEvent.response "r1" false]).2.2.1
      (by decide) (by decide)
  · exact (rpc_request_resolved_exactly_once "r1" [RpcEvent.response "r1" false]).2.1
      [RpcEvent.timerFire] (by decide)

/-- With no hit, the first-match truncation is the whole list. -/
theorem takeThrough_of_not_any (env : Nat → Bool) (l : List Nat)
    (h : l.any env = false) : takeThroughFirstHit env l = l := by
  induction l with
  | nil => rfl
  | cons x xs ih =>
      have hx : env x = false := by
        cases hh : env x
        · rfl
        · simp [List.any_cons, hh] at h
      have hxs : xs.any env = false := by
        simp [List.any_cons, hx] at h
        simpa using h
      simp [takeThroughFirstHit, hx, ih hxs]

/-- First-match truncation over an append: a hit in the first part hides
the second part entirely. -/
theorem takeThrough_append (env : Nat → Bool) (a b : List Nat) :
    takeThroughFirstHit env (a ++ b)
      = if a.any env = true then takeThroughFirstHit env a
        else a ++ takeThroughFirstHit env b := by
  induction a with
  | nil => simp
  | cons x xs ih =>
      cases hx : env x
      · simp [takeThroughFirstHit, hx, ih]
        split <;> simp
      · simp [takeThroughFirstHit, hx]

/-- Tier composition matches first-match truncation over the appended
eligibility lists. -/
theorem tierSeq_spec (env : Nat → Bool) (t rest : Bool × List Nat)
    (e1 erest : List Nat)
    (h1a : t.1 = e1.any env) (h1l : t.2 = takeThroughFirstHit env e1)
    (hra : rest.1 = erest.any env) (hrl : rest.2 = takeThroughFirstHit env erest) :
    (tierSeq t rest).1 = (e1 ++ erest).any env
    ∧ (tierSeq t rest).2 = takeThroughFirstHit env (e1 ++ erest) := by
  cases ha : e1.any env
  · simp [tierSeq, h1a, ha, h1l, hra, hrl, takeThrough_append,
      takeThrough_of_not_any env e1 ha]
  · simp [tierSeq, h1a, ha, h1l, takeThrough_append]

/-- The prefix tier equals first-match truncation of its eligibility
list (prefix hooks whose prefix starts the text, in table order). -/
theorem runPrefixTier_spec (env : Nat → Bool) (text : String)
    (hooks : List (String × Nat)) :
    runPrefixTier env text hooks
      = (((hooks.filter (fun ph => text.startsWith ph.1)).map (fun ph => ph.2)).any env,
         takeThroughFirstHit env
           ((hooks.filter (fun ph => text.startsWith ph.1)).map (fun ph => ph.2))) := by
  induction hooks with
  | nil => rfl
  | cons ph rest ih =>
      obtain ⟨pfx, h⟩ := ph
      by_cases hs : text.startsWith pfx
      · cases he : env h
        · simp [runPrefixTier, hs, he, ih, takeThroughFirstHit]
        · simp [runPrefixTier, hs, he, takeThroughFirstHit]
      · simp [runPrefixTier, hs, ih]

/-- The mention tier equals first-match truncation of its eligibility
list. -/
theorem runMentionTier_spec (env : Nat → Bool) (mentions : Option (List MentionM))
    (hooks : List (String × Nat)) :
    runMentionTier env mentions hooks
      = (((hooks.filter (fun ah => mentionsTruthy mentions &&
            (mentions.getD []).any (fun mn => mn.number == ah.1))).map
            (fun ah => ah.2)).any env,
         takeThroughFirstHit env
           ((hooks.filter (fun ah => mentionsTruthy mentions &&
              (mentions.getD []).any (fun mn => mn.number == ah.1))).map
              (fun ah => ah.2))) := by
  induction hooks with
  | nil => rfl
  | cons ah rest ih =>
      obtain ⟨acct, h⟩ := ah
      by_cases hg : mentionsTruthy mentions
          && (mentions.getD []).any (fun mn => mn.number == acct)
      · cases he : env h
        · simp [runMentionTier, hg, he, ih, takeThroughFirstHit]
        · simp [runMentionTier, hg, he, takeThroughFirstHit]
      · simp [runMentionTier, hg, ih]

/-- The catch-all tier equals first-match truncation of the full hook
list in registration order. -/
theorem runCatchAllTier_spec (env : Nat → Bool) (hooks : List Nat) :
    runCatchAllTier env hooks = (hooks.any env, takeThroughFirstHit env hooks) := by
  induction hooks with
  | nil => rfl
  | cons h rest ih =>
      cases he : env h
      · simp [runCatchAllTier, he, ih, takeThroughFirstHit]
      · simp [runCatchAllTier, he, takeThroughFirstHit]

/-- On a well-formed cache the lookup always yields the compilation of
the requested key. -/
theorem cacheLookup_fst (cache : List (KeywordKey × CompiledPatternM))
    (k : KeywordKey) (hwf : CacheWF cache) :
    (cacheLookup cache k).1 = compileKeyword k := by
  unfold cacheLookup
  cases hfind : cache.find? (fun e => e.1 = k) with
  | none => rfl
  | some e =>
      have hmem : e ∈ cache := List.mem_of_find?_eq_some hfind
      have hkey : e.1 = k := by
        have := List.find?_some hfind
        simpa using this
      simpa using (hwf e hmem).trans (by rw [hkey])

/-- The lookup preserves cache well-formedness. -/
theorem cacheLookup_wf (cache : List (KeywordKey × CompiledPatternM))
    (k : KeywordKey) (hwf : CacheWF cache) :
    CacheWF (cacheLookup cache k).2 := by
  unfold cacheLookup
  cases hfind : cache.find? (fun e => e.1 = k) with
  | none =>
      intro e he
      rcases List.mem_append.mp he with he2 | he2
      · exact hwf e he2
      · simp at he2
        rw [he2]
  | some e => exact hwf

/-- Searching with the pattern compiled from a key equals the direct
keyword search at that key. -/
theorem patternSearch_compileKeyword (k : KeywordKey) (text : String) :
    patternSearch (compileKeyword k) text = keywordSearch k.1 k.2.1 k.2.2 text := by
  simp [patternSearch, compileKeyword, keywordSearch, Bool.not_not]

/-- The keyword tier equals first-match truncation of its eligibility
list, and keeps the cache well-formed. -/
theorem runKeywordTier_spec (env : Nat → Bool) (text : String)
    (hooks : List (KeywordKey × Nat))
    (cache : List (KeywordKey × CompiledPatternM)) (hwf : CacheWF cache) :
    (runKeywordTier env text hooks cache).1
      = ((hooks.filter (fun kh => keywordSearch kh.1.1 kh.1.2.1 kh.1.2.2 text)).map
          (fun kh => kh.2)).any env
    ∧ (runKeywordTier env text hooks cache).2.1
      = takeThroughFirstHit env
          ((hooks.filter (fun kh => keywordSearch kh.1.1 kh.1.2.1 kh.1.2.2 text)).map
            (fun kh => kh.2))
    ∧ CacheWF (runKeywordTier env text hooks cache).2.2 := by
  induction hooks generalizing cache with
  | nil => exact ⟨rfl, rfl, hwf⟩
  | cons kh rest ih =>
      obtain ⟨k, h⟩ := kh
      have hps : patternSearch (cacheLookup cache k).1 text
          = keywordSearch k.1 k.2.1 k.2.2 text := by
        rw [cacheLookup_fst cache k hwf, patternSearch_compileKeyword]
      have hwf' : CacheWF (cacheLookup cache k).2 := cacheLookup_wf cache k hwf
      obtain ⟨iha, ihl, ihw⟩ := ih (cacheLookup cache k).2 hwf'
      by_cases hm : keywordSearch k.1 k.2.1 k.2.2 text = true
      · cases he : env h
        · refine ⟨?_, ?_, ?_⟩ <;>
            simp [runKeywordTier, hps, hm, he, iha, ihl, ihw, takeThroughFirstHit]
        · refine ⟨?_, ?_, ?_⟩ <;>
            simp [runKeywordTier, hps, hm, he, hwf', takeThroughFirstHit]
      · have hm' : keywordSearch k.1 k.2.1 k.2.2 text = false := by
          simpa using hm
        refine ⟨?_, ?_, ?_⟩ <;>
          simp [runKeywordTier, hps, hm', iha, ihl, ihw]

/-- The personality loop stops at the first matching-and-handling group:
its result index is found within ps1's span, every dispatched index lies
at or before the handling one, and groups after it never run. -/
theorem dispatchGroupsFrom_short (env : Nat → Bool) (msg : DataMessageM)
    (ctx : ContextM) (ps1 : List PersonalityState) (pG : PersonalityState)
    (ps2 : List PersonalityState) (i : Nat)
    (hnone : ∀ q ∈ ps1, matchesContextImpl q.contexts ctx = true →
        (personalityHandleMessage env q msg).1 = false)
    (hmatch : matchesContextImpl pG.contexts ctx = true)
    (hhand : (personalityHandleMessage env pG msg).1 = true) :
    (dispatchGroupsFrom env msg ctx i (ps1 ++ pG :: ps2)).1.isSome = true
    ∧ (∀ j ∈ (dispatchGroupsFrom env msg ctx i (ps1 ++ pG :: ps2)).2,
        j ≤ i + ps1.length) := by
  induction ps1 generalizing i with
  | nil =>
      refine ⟨by simp [dispatchGroupsFrom, hmatch, hhand], ?_⟩
      intro j hj
      simp [dispatchGroupsFrom, hmatch, hhand] at hj
      omega
  | cons q ps1 ih =>
      have hq1 : ∀ r ∈ ps1, matchesContextImpl r.contexts ctx = true →
          (personalityHandleMessage env r msg).1 = false :=
        fun r hr => hnone r (List.mem_cons_of_mem q hr)
      obtain ⟨ihs, ihb⟩ := ih (i + 1) hq1
      by_cases hq : matchesContextImpl q.contexts ctx = true
      · have hqh : (personalityHandleMessage env q msg).1 = false :=
          hnone q (List.mem_cons_self q ps1) hq
        refine ⟨by simp [dispatchGroupsFrom, hq, hqh, ihs], ?_⟩
        intro j hj
        simp only [List.cons_append, dispatchGroupsFrom, hq, hqh] at hj
        simp only [if_true, if_false, Bool.false_eq_true] at hj
        rcases List.mem_cons.mp hj with rfl | hj2
        · simp
        · have := ihb j hj2
          simp only [List.length_cons]
          omega
      · have hqb : matchesContextImpl q.contexts ctx = false := by
          simpa using hq
        refine ⟨by simp [dispatchGroupsFrom, hqb, ihs], ?_⟩
        intro j hj
        simp only [List.cons_append, dispatchGroupsFrom, hqb] at hj
        simp only [Bool.false_eq_true, if_false] at hj
        have := ihb j hj
        simp only [List.length_cons]
        omega

/-- C5.  Within one dispatch of a DataMessage, the invoked hooks are
exactly the eligible hooks in the fixed tier order prefix, mention,
keyword, catch-all, truncated at the first hook returning true (which
stops all remaining hooks and tiers), and dispatch reports handled
exactly when some eligible hook returns true; at the group level, the
first context-matching personality whose dispatch handles the message
stops the loop: no later personality runs and the root fallback is
skipped. -/
theorem dispatch_priority_first_match (env : Nat → Bool) (p : PersonalityState)
    (msg : DataMessageM) (hwf : CacheWF p.keywordCache) :
    (personalityHandleMessage env p msg).1 = (eligibleHooks p msg).any env
    ∧ (personalityHandleMessage env p msg).2.1
        = takeThroughFirstHit env (eligibleHooks p msg)
    ∧ (∀ ps1 pG ps2 root ctx,
        (∀ q ∈ ps1, matchesContextImpl q.contexts ctx = true →
            (personalityHandleMessage env q msg).1 = false) →
        matchesContextImpl pG.contexts ctx = true →
        (personalityHandleMessage env pG msg).1 = true →
        (handleDataMessageGroups env (ps1 ++ pG :: ps2) root msg ctx).1 = true
        ∧ (handleDataMessageGroups env (ps1 ++ pG :: ps2) root msg ctx).2.2 = false
        ∧ (∀ j ∈ (handleDataMessageGroups env (ps1 ++ pG :: ps2) root msg ctx).2.1,
            j ≤ ps1.length)) := by
  have hgroups : ∀ ps1 pG ps2 root ctx,
      (∀ q ∈ ps1, matchesContextImpl q.contexts ctx = true →
          (personalityHandleMessage env q msg).1 = false) →
      matchesContextImpl pG.contexts ctx = true →
      (personalityHandleMessage env pG msg).1 = true →
      (handleDataMessageGroups env (ps1 ++ pG :: ps2) root msg ctx).1 = true
      ∧ (handleDataMessageGroups env (ps1 ++ pG :: ps2) root msg ctx).2.2 = false
      ∧ (∀ j ∈ (handleDataMessageGroups env (ps1 ++ pG :: ps2) root msg ctx).2.1,
          j ≤ ps1.length) := by
    intro ps1 pG ps2 root ctx hnone hmatch hhand
    obtain ⟨hs, hb⟩ :=
      dispatchGroupsFrom_short env msg ctx ps1 pG ps2 0 hnone hmatch hhand
    obtain ⟨idx, hidx⟩ :=
      Option.isSome_iff_exists.mp hs
    refine ⟨?_, ?_, ?_⟩
    · simp [handleDataMessageGroups, hidx]
    · simp [handleDataMessageGroups, hidx]
    · intro j hj
      simp only [handleDataMessageGroups, hidx] at hj
      simpa using hb j hj
  refine ⟨?_, ?_, hgroups⟩ <;>
  · cases hmsg : msg.message with
    | none =>
        have h2 := runMentionTier_spec env msg.mentions p.mentionHooks
        have h4 := runCatchAllTier_spec env p.messageHooks
        simp only [personalityHandleMessage, eligibleHooks, hmsg, h2, h4]
        cases ha2 : ((p.mentionHooks.filter (fun ah => mentionsTruthy msg.mentions &&
            (msg.mentions.getD []).any (fun mn => mn.number == ah.1))).map
            (fun ah => ah.2)).any env <;>
          cases ha4 : p.messageHooks.any env <;>
          simp [ha2, ha4, takeThrough_append,
            takeThrough_of_not_any, List.nil_append]
    | some text =>
        have h1 := runPrefixTier_spec env text p.prefixHooks
        have h2 := runMentionTier_spec env msg.mentions p.mentionHooks
        obtain ⟨h3a, h3l, _⟩ :=
          runKeywordTier_spec env text p.keywordHooks p.keywordCache hwf
        have h4 := runCatchAllTier_spec env p.messageHooks
        simp only [personalityHandleMessage, eligibleHooks, hmsg, h1, h2, h3a, h3l, h4]
        cases ha1 : ((p.prefixHooks.filter (fun ph => text.startsWith ph.1)).map
            (fun ph => ph.2)).any env <;>
          cases ha2 : ((p.mentionHooks.filter (fun ah => mentionsTruthy msg.mentions &&
              (msg.mentions.getD []).any (fun mn => mn.number == ah.1))).map
              (fun ah => ah.2)).any env <;>
          cases ha3 : ((p.keywordHooks.filter (fun kh =>
              keywordSearch kh.1.1 kh.1.2.1 kh.1.2.2 text)).map
              (fun kh => kh.2)).any env <;>
          cases ha4 : p.messageHooks.any env <;>
          simp [ha1, ha2, ha3, ha4, takeThrough_append, takeThrough_of_not_any]

/-- C5 witness: a personality with one prefix hook (id 1, returning
false) and two catch-all hooks (ids 2 and 3, the first returning true)
dispatching a text message. -/
theorem dispatch_priority_first_match_witness :
    (personalityHandleMessage (fun h => h == 2)
        ⟨[2, 3], [("!", 1)], [], [], [], []⟩
        ⟨some "!cmd", none, none, "+1", "A"⟩).1
      = (eligibleHooks ⟨[2, 3], [("!", 1)], [], [], [], []⟩
          ⟨some "!cmd", none, none, "+1", "A"⟩).any (fun h => h == 2)
    ∧ (personalityHandleMessage (fun h => h == 2)
        ⟨[2, 3], [("!", 1)], [], [], [], []⟩
        ⟨some "!cmd", none, none, "+1", "A"⟩).2.1
      = takeThroughFirstHit (fun h => h == 2)
          (eligibleHooks ⟨[2, 3], [("!", 1)], [], [], [], []⟩
            ⟨some "!cmd", none, none, "+1", "A"⟩) :=
  ⟨(dispatch_priority_first_match (fun h => h == 2)
      ⟨[2, 3], [("!", 1)], [], [], [], []⟩
      ⟨some "!cmd", none, none, "+1", "A"⟩ (by simp [CacheWF])).1,
   (dispatch_priority_first_match (fun h => h == 2)
      ⟨[2, 3], [("!", 1)], [], [], [], []⟩
      ⟨some "!cmd", none, none, "+1", "A"⟩ (by simp [CacheWF])).2.1⟩
